import Mathlib

/-!
Verification development for the PXI-2722 resistance manager
(src/resistance_manager.py).

The decomposition core is embedded shallowly:

* `SubsetSum.f`, `SubsetSum.g`, `SubsetSum.get_banks_to_leave_open` embed the
  memoized subset-sum solver.  The Python memo dictionary becomes an explicit
  association list threaded through the recursion.
* `ResistanceManager.get_banks_to_close_by_name` embeds the decomposer and
  encoder.  Python floats are embedded as rationals: every catalog value and
  every quarter-ohm quantity occurring in the algorithm is a dyadic rational
  that IEEE doubles represent exactly, and all arithmetic the code performs on
  them (multiplication by 4, division by 4, subtraction, summation, built-in
  round) is exact on doubles in the exercised range, so the rational model is
  faithful.
* The NI-Switch session (the Topology Service) is external; `clearWholeChannel`
  is embedded against an abstract path-state oracle and returns the trace of
  operations it issues.

One deviation of note: the Python code iterates over `set` objects
(`set(even_bank) - set(values)`) whose element order is a hash-table artifact;
the embedding fixes catalog order for that iteration.  Statements about the
closure plan are therefore made up to permutation where the order within a
bank would matter.
-/

namespace Nimi

/-- Python 3 built-in `round` restricted to the values this program feeds it
(dyadic rationals exactly representable as doubles): round to the nearest
integer with ties going to the even integer (banker's rounding). -/
def pyRound (q : ℚ) : ℤ :=
  if q - ⌊q⌋ < 1/2 then ⌊q⌋
  else if 1/2 < q - ⌊q⌋ then ⌊q⌋ + 1
  else if ⌊q⌋ % 2 = 0 then ⌊q⌋ else ⌊q⌋ + 1

namespace SubsetSum

/-- The memo dictionary of `SubsetSum.f`, keyed by `(i, target_Sum)`. -/
abbrev Memo := List ((ℕ × ℚ) × ℕ)

/-- Dictionary lookup in the memo association list (Python `(i, r) in memo` /
`memo[(i, r)]`). -/
def memoLookup (memo : Memo) (k : ℕ × ℚ) : Option ℕ :=
  match memo with
  | [] => none
  | e :: rest => if e.1 = k then some e.2 else memoLookup rest k

/-- Embedding of `SubsetSum.f` (resistance_manager.py lines 193-201): counts
subsets of `v_list[i:]` summing to `target_Sum`, memoized in `memo`.  The
mutated Python dict becomes the second component of the result. -/
def f (v_list : List ℚ) (i : ℕ) (target_Sum : ℚ) (memo : Memo) : ℕ × Memo :=
  if _h : i ≥ v_list.length then
    (if target_Sum = 0 then 1 else 0, memo)
  else
    match memoLookup memo (i, target_Sum) with
    | some c => (c, memo)
    | none =>
      let r1 := f v_list (i + 1) target_Sum memo
      let r2 := f v_list (i + 1) (target_Sum - v_list.getD i 0) r1.2
      (r1.1 + r2.1, ((i, target_Sum), r1.1 + r2.1) :: r2.2)
  termination_by v_list.length - i
  decreasing_by all_goals omega

/-- Loop body of `SubsetSum.g` (lines 181-191): walks
`enumerate(zip(v_list, w_list))` from position `i`, including `v_list[i]`
whenever a solution still exists for the tail, threading the memo. -/
def gLoop (v_list w_list : List ℚ) (i : ℕ) (target_Sum : ℚ) (memo : Memo) :
    (List ℚ × List ℚ) × Memo :=
  if h : i < v_list.length ∧ i < w_list.length then
    let x := v_list.get ⟨i, h.1⟩
    let y := w_list.get ⟨i, h.2⟩
    let fr := f v_list (i + 1) (target_Sum - x) memo
    if 0 < fr.1 then
      let rest := gLoop v_list w_list (i + 1) (target_Sum - x) fr.2
      ((x :: rest.1.1, y :: rest.1.2), rest.2)
    else
      gLoop v_list w_list (i + 1) target_Sum fr.2
  else (([], []), memo)
  termination_by v_list.length - i
  decreasing_by all_goals omega

/-- Embedding of `SubsetSum.g`: greedy reconstruction with lookahead. -/
def g (v_list w_list : List ℚ) (target_Sum : ℚ) (memo : Memo) :
    (List ℚ × List ℚ) × Memo :=
  gLoop v_list w_list 0 target_Sum memo

/-- Embedding of `SubsetSum.get_banks_to_leave_open` (lines 175-179): fresh
memo per call, returns `(sum(result), result)`. -/
def get_banks_to_leave_open (x_list : List ℚ) (target : ℚ) : ℚ × List ℚ :=
  let memo : Memo := []
  let result := ((g x_list x_list target memo).1).1
  (result.sum, result)

/-- Pure (memo-free) reformulation of the feasibility count of `SubsetSum.f`,
phrased on the suffix list itself. -/
def count : List ℚ → ℚ → ℕ
  | [], r => if r = 0 then 1 else 0
  | x :: xs, r => count xs r + count xs (r - x)

/-- Pure (memo-free) reformulation of the reconstruction loop of
`SubsetSum.g`, phrased on the suffix list itself. -/
def gList : List ℚ → ℚ → List ℚ
  | [], _ => []
  | x :: xs, r => if 0 < count xs (r - x) then x :: gList xs (r - x) else gList xs r

/-- Number of sublists of `l` summing to `r`, via Mathlib's `sublists'`: the
specification-level meaning of "number of subsets of values[i:] summing to r". -/
def numSubsets (l : List ℚ) (r : ℚ) : ℕ :=
  (l.sublists'.filter (fun s => s.sum = r)).length

/-- Invariant of the memo dictionary: every stored entry is the true
feasibility count for its key. -/
def MemoOK (v : List ℚ) (memo : Memo) : Prop :=
  ∀ e ∈ memo, e.2 = count (v.drop e.1.1) e.1.2

end SubsetSum

/-- State of a `ResistanceManager` instance: the two bank channel-name lists
obtained from the hardware at construction (index 0 the trunk, 1 the engage
relay, 2-9 the per-value bypass relays) and the `connections` field. -/
structure ResistanceManager where
  bank_a : List String
  bank_b : List String
  connections : List (String × String)

namespace ResistanceManager

/-- Default string for out-of-range channel-list indexing (never reached on
layouts with the documented ten channels per bank). -/
def emptyS : String := ""

/-- Bank A catalog values in ohms (resistance_manager.py line 83). -/
def even_bank : List ℚ := [1/4, 1/2, 1, 2, 4, 8, 16, 32]

/-- Bank B catalog values in ohms (line 84). -/
def odd_bank : List ℚ := [64, 128, 256, 512, 1024, 2048, 4096, 8192]

/-- Quantization step of line 74: `round(resistance*4)/4`. -/
def quantize (resistance : ℚ) : ℚ := (pyRound (resistance * 4) : ℚ) / 4

/-- The `bank0_dict` mapping of lines 97-105: Bank A value to bypass channel. -/
def bank0_dict (m : ResistanceManager) : List (ℚ × String) :=
  [(1/4, m.bank_a.getD 2 emptyS), (1/2, m.bank_a.getD 3 emptyS),
   (1, m.bank_a.getD 4 emptyS), (2, m.bank_a.getD 5 emptyS),
   (4, m.bank_a.getD 6 emptyS), (8, m.bank_a.getD 7 emptyS),
   (16, m.bank_a.getD 8 emptyS), (32, m.bank_a.getD 9 emptyS)]

/-- The `bank1_dict` mapping of lines 107-115: Bank B value to bypass channel. -/
def bank1_dict (m : ResistanceManager) : List (ℚ × String) :=
  [(64, m.bank_b.getD 2 emptyS), (128, m.bank_b.getD 3 emptyS),
   (256, m.bank_b.getD 4 emptyS), (512, m.bank_b.getD 5 emptyS),
   (1024, m.bank_b.getD 6 emptyS), (2048, m.bank_b.getD 7 emptyS),
   (4096, m.bank_b.getD 8 emptyS), (8192, m.bank_b.getD 9 emptyS)]

/-- Dictionary access `d[k]` for the bank dictionaries. -/
def dictGet (d : List (ℚ × String)) (k : ℚ) : String :=
  match d with
  | [] => emptyS
  | e :: rest => if e.1 = k then e.2 else dictGet rest k

/-- Embedding of `ResistanceManager.get_banks_to_close_by_name` (lines
67-135).  Returns the connection-pair list together with the updated manager
state (the code clears and refills `self.connections`).  The iteration order
over the Python sets `bank0_close` / `bank1_close` is fixed to catalog order
here; see the file header. -/
def get_banks_to_close_by_name (m : ResistanceManager) (resistance : ℚ) :
    List (String × String) × ResistanceManager :=
  if 0 ≤ resistance ∧ resistance ≤ 16000 then
    let quantized := quantize resistance
    let sv := SubsetSum.get_banks_to_leave_open (even_bank ++ odd_bank) quantized
    let values := sv.2
    let bank0_close := even_bank.filter (fun x => ¬ x ∈ values)
    let bank1_close := odd_bank.filter (fun x => ¬ x ∈ values)
    let trunkA := m.bank_a.getD 0 emptyS
    let trunkB := m.bank_b.getD 0 emptyS
    let a_engage := m.bank_a.getD 1 emptyS
    let b_engage := m.bank_b.getD 1 emptyS
    let connections :=
      [(trunkA, a_engage), (trunkB, b_engage), (trunkA, trunkB)]
        ++ bank0_close.map (fun bank => (trunkA, dictGet (bank0_dict m) bank))
        ++ bank1_close.map (fun bank => (trunkB, dictGet (bank1_dict m) bank))
    (connections, { m with connections := connections })
  else
    ([], m)

/-- Operations issued to the Topology Service (abstracted NI-Switch session). -/
inductive TopoOp
  | query (a b : String)
  | disconnect (a b : String)
deriving DecidableEq

/-- The local `checkAndDisconnect` helper of `clearWholeChannel` (lines
143-147), against an abstract path-state oracle `path_exists`: query the pair,
then disconnect only if a path exists. -/
def checkAndDisconnect (path_exists : String → String → Bool) (a b : String) :
    List TopoOp :=
  TopoOp.query a b :: (if path_exists a b then [TopoOp.disconnect a b] else [])

/-- Embedding of `ResistanceManager.clearWholeChannel` (lines 138-155) as the
trace of Topology Service operations it issues. -/
def clearWholeChannel (m : ResistanceManager)
    (path_exists : String → String → Bool) : List TopoOp :=
  ((m.bank_a.drop 1).map
      (fun n => checkAndDisconnect path_exists (m.bank_a.getD 0 emptyS) n)).flatten
    ++ ((m.bank_b.drop 1).map
      (fun n => checkAndDisconnect path_exists (m.bank_b.getD 0 emptyS) n)).flatten
    ++ checkAndDisconnect path_exists (m.bank_a.getD 0 emptyS) (m.bank_b.getD 0 emptyS)

/-- All bypass, engage and bridge pairs of the managed channel, in the order
`clearWholeChannel` visits them. -/
def managedPairs (m : ResistanceManager) : List (String × String) :=
  ((m.bank_a.drop 1).map (fun n => (m.bank_a.getD 0 emptyS, n)))
    ++ ((m.bank_b.drop 1).map (fun n => (m.bank_b.getD 0 emptyS, n)))
    ++ [(m.bank_a.getD 0 emptyS, m.bank_b.getD 0 emptyS)]

/-- Modelled from the spec: the direct binary-decomposition reference
implementation of section 8 of the specification, selecting one catalog value
per set bit of the 16-bit value `q = t / 0.25`. -/
def binaryDecompose (q : ℕ) : List ℚ :=
  ((List.range 16).filter (fun j => q.testBit j)).map (fun j => (2:ℚ)^j / 4)

end ResistanceManager

/-- Helper list of successive powers of two, `[2^i, 2^(i+1), ...]` of length
`k`; the catalog is this list (at `i = 0`, `k = 16`) scaled by one quarter. -/
def powTail (i k : ℕ) : List ℚ :=
  match k with
  | 0 => []
  | k + 1 => (2:ℚ)^i :: powTail (i+1) k

namespace SubsetSum

theorem MemoOK_nil (v : List ℚ) : MemoOK v [] :=
  fun e he => absurd he (List.not_mem_nil e)

theorem memoLookup_ok {v : List ℚ} :
    ∀ {memo : Memo}, MemoOK v memo → ∀ {i : ℕ} {r : ℚ} {c : ℕ},
      memoLookup memo (i, r) = some c → c = count (v.drop i) r := by
  intro memo
  induction memo with
  | nil => intro _ i r c h; simp [memoLookup] at h
  | cons e rest ih =>
    intro hm i r c h
    rw [memoLookup] at h
    by_cases he : e.1 = (i, r)
    · rw [if_pos he] at h
      simp only [Option.some.injEq] at h
      have h2 := hm e (List.mem_cons_self _ _)
      rw [he] at h2
      rw [← h, h2]
    · rw [if_neg he] at h
      exact ih (fun e' he' => hm e' (List.mem_cons_of_mem _ he')) h

theorem f_spec_aux (v : List ℚ) :
    ∀ (n i : ℕ) (r : ℚ) (memo : Memo), v.length - i ≤ n → MemoOK v memo →
      (f v i r memo).1 = count (v.drop i) r ∧ MemoOK v (f v i r memo).2 := by
  intro n
  induction n with
  | zero =>
    intro i r memo hn hm
    have hi : v.length ≤ i := by omega
    rw [f, dif_pos (by omega : i ≥ v.length)]
    exact ⟨by simp [List.drop_eq_nil_of_le hi, count], hm⟩
  | succ n ih =>
    intro i r memo hn hm
    by_cases hi : i ≥ v.length
    · rw [f, dif_pos hi]
      exact ⟨by simp [List.drop_eq_nil_of_le hi, count], hm⟩
    · push_neg at hi
      have hdrop : v.drop i = v[i] :: v.drop (i+1) := List.drop_eq_getElem_cons hi
      have hg : v.getD i 0 = v[i] := by
        rw [List.getD_eq_getElem?_getD, List.getElem?_eq_getElem hi]; rfl
      rw [f, dif_neg (by omega)]
      cases hlk : memoLookup memo (i, r) with
      | some c =>
        simp only [hlk]
        exact ⟨memoLookup_ok hm hlk, hm⟩
      | none =>
        simp only [hlk]
        obtain ⟨h1, hm1⟩ := ih (i+1) r memo (by omega) hm
        obtain ⟨h2, hm2⟩ := ih (i+1) (r - v.getD i 0) _ (by omega) hm1
        constructor
        · show (f v (i+1) r memo).1 + _ = _
          rw [h1, h2, hdrop, count, hg]
        · intro e he
          rcases List.mem_cons.mp he with he | he
          · rw [he]
            show _ = count (v.drop i) r
            rw [h1, h2, hdrop, count, hg]
          · exact hm2 e he

theorem f_spec {v : List ℚ} {i : ℕ} {r : ℚ} {memo : Memo} (hm : MemoOK v memo) :
    (f v i r memo).1 = count (v.drop i) r ∧ MemoOK v (f v i r memo).2 :=
  f_spec_aux v (v.length - i) i r memo le_rfl hm

theorem gLoop_spec_aux (v : List ℚ) :
    ∀ (n i : ℕ) (r : ℚ) (memo : Memo), v.length - i ≤ n → MemoOK v memo →
      ((gLoop v v i r memo).1).1 = gList (v.drop i) r ∧
      ((gLoop v v i r memo).1).2 = gList (v.drop i) r := by
  intro n
  induction n with
  | zero =>
    intro i r memo hn hm
    rw [gLoop, dif_neg (by omega : ¬ (i < v.length ∧ i < v.length))]
    simp [List.drop_eq_nil_of_le (by omega : v.length ≤ i), gList]
  | succ n ih =>
    intro i r memo hn hm
    by_cases hi : i < v.length
    · have hdrop : v.drop i = v[i] :: v.drop (i+1) := List.drop_eq_getElem_cons hi
      rw [gLoop, dif_pos ⟨hi, hi⟩]
      simp only [List.get_eq_getElem]
      rw [hdrop, gList]
      obtain ⟨hf, hmf⟩ := f_spec (i := i+1) (r := r - v[i]) hm
      by_cases hc : 0 < count (v.drop (i+1)) (r - v[i])
      · rw [if_pos hc, if_pos (by rw [hf]; exact hc)]
        obtain ⟨ih1, ih2⟩ := ih (i+1) (r - v[i]) _ (by omega) hmf
        exact ⟨by rw [ih1], by rw [ih2]⟩
      · rw [if_neg hc, if_neg (by rw [hf]; exact hc)]
        exact ih (i+1) r _ (by omega) hmf
    · rw [gLoop, dif_neg (by omega : ¬ (i < v.length ∧ i < v.length))]
      simp [List.drop_eq_nil_of_le (by omega : v.length ≤ i), gList]

/-- The memoized solver equals its pure reformulation: a fresh-memo call of
`get_banks_to_leave_open` returns the greedy-with-lookahead subset `gList`
together with its sum. -/
theorem get_banks_to_leave_open_eq (xs : List ℚ) (t : ℚ) :
    get_banks_to_leave_open xs t = ((gList xs t).sum, gList xs t) := by
  have h := gLoop_spec_aux xs xs.length 0 t [] (by omega) (MemoOK_nil xs)
  rw [List.drop_zero] at h
  rw [get_banks_to_leave_open]
  show ((g xs xs t []).1.1.sum, (g xs xs t []).1.1) = _
  rw [g, h.1]

/-- The pure feasibility count is the number of sublists with the given sum. -/
theorem count_eq_numSubsets : ∀ (l : List ℚ) (r : ℚ), count l r = numSubsets l r := by
  intro l
  induction l with
  | nil =>
    intro r
    by_cases hr : r = 0 <;>
      simp [count, numSubsets, List.sublists'_nil, List.filter, hr, eq_comm]
  | cons x xs ih =>
    intro r
    rw [count, numSubsets, List.sublists'_cons, List.filter_append, List.length_append,
      List.filter_map, List.length_map]
    congr 1
    · exact ih r
    · rw [ih (r - x), numSubsets]
      congr 1
      apply List.filter_congr
      intro s _
      simp only [Function.comp_apply, List.sum_cons, decide_eq_decide]
      constructor <;> intro h <;> linarith

/-- Whenever the target is achievable at all, the greedy-with-lookahead
reconstruction returns a subset summing exactly to the target. -/
theorem gList_sum : ∀ (l : List ℚ) (r : ℚ), 0 < count l r → (gList l r).sum = r := by
  intro l
  induction l with
  | nil =>
    intro r h
    rw [count] at h
    by_cases hr : r = 0
    · simp [gList, hr]
    · rw [if_neg hr] at h; omega
  | cons x xs ih =>
    intro r h
    rw [count] at h
    rw [gList]
    by_cases hc : 0 < count xs (r - x)
    · rw [if_pos hc, List.sum_cons, ih _ hc]; ring
    · rw [if_neg hc]
      exact ih _ (by omega)

/-- Scaling every value and the target by the same nonzero divisor does not
change the feasibility count. -/
theorem count_div (c : ℚ) (hc : c ≠ 0) : ∀ (l : List ℚ) (r : ℚ),
    count (l.map (fun x => x / c)) (r / c) = count l r := by
  intro l
  induction l with
  | nil => intro r; simp [count, div_eq_zero_iff, hc]
  | cons x xs ih =>
    intro r
    simp only [List.map_cons, count]
    rw [div_sub_div_same, ih, ih]

/-- Scaling every value and the target by the same nonzero divisor scales the
reconstructed subset pointwise. -/
theorem gList_div (c : ℚ) (hc : c ≠ 0) : ∀ (l : List ℚ) (r : ℚ),
    gList (l.map (fun x => x / c)) (r / c) = (gList l r).map (fun x => x / c) := by
  intro l
  induction l with
  | nil => intro r; simp [gList]
  | cons x xs ih =>
    intro r
    simp only [List.map_cons, gList]
    rw [div_sub_div_same, count_div c hc]
    by_cases h : 0 < count xs (r - x)
    · rw [if_pos h, if_pos h, ih, List.map_cons]
    · rw [if_neg h, if_neg h, ih]

end SubsetSum

open SubsetSum

theorem powTail_zero (i : ℕ) : powTail i 0 = [] := rfl

theorem powTail_succ (i k : ℕ) : powTail i (k+1) = (2:ℚ)^i :: powTail (i+1) k := rfl

/-- Targets that are not a multiple of `2^i` below `2^(i+k)` have no subset of
the power tail summing to them. -/
theorem count_powTail_eq_zero :
    ∀ (k i : ℕ) (r : ℚ), (∀ n : ℕ, n < 2^k → r ≠ (2:ℚ)^i * n) →
      count (powTail i k) r = 0 := by
  intro k
  induction k with
  | zero =>
    intro i r h
    have h0 := h 0 (by norm_num)
    simp only [Nat.cast_zero, mul_zero] at h0
    simp [powTail_zero, SubsetSum.count, h0]
  | succ k ih =>
    intro i r h
    have hp : 2^(k+1) = 2^k * 2 := by rw [pow_succ]
    rw [powTail_succ, SubsetSum.count]
    have h1 : SubsetSum.count (powTail (i+1) k) r = 0 := by
      apply ih
      intro n hn he
      refine h (2*n) (by omega) ?_
      rw [he]; push_cast; ring
    have h2 : SubsetSum.count (powTail (i+1) k) (r - (2:ℚ)^i) = 0 := by
      apply ih
      intro n hn he
      have hr : r = (2:ℚ)^(i+1) * n + (2:ℚ)^i := by linarith
      refine h (2*n+1) (by omega) ?_
      rw [hr]; push_cast; ring
    rw [h1, h2]

/-- Each achievable multiple of `2^i` has exactly one subset of the power tail
summing to it. -/
theorem count_powTail_eq_one :
    ∀ (k i n : ℕ), n < 2^k → SubsetSum.count (powTail i k) ((2:ℚ)^i * n) = 1 := by
  intro k
  induction k with
  | zero =>
    intro i n hn
    interval_cases n
    simp [powTail_zero, SubsetSum.count]
  | succ k ih =>
    intro i n hn
    have hp : 2^(k+1) = 2^k * 2 := by rw [pow_succ]
    have h2i : (2:ℚ)^i ≠ 0 := pow_ne_zero i two_ne_zero
    rw [powTail_succ, SubsetSum.count]
    rcases Nat.even_or_odd n with ⟨m, hm⟩ | ⟨m, hm⟩
    · have hm2 : m < 2^k := by omega
      have e1 : (2:ℚ)^i * (n:ℚ) = (2:ℚ)^(i+1) * m := by
        subst hm; push_cast; ring
      have h1 : SubsetSum.count (powTail (i+1) k) ((2:ℚ)^i * (n:ℚ)) = 1 := by
        rw [e1]; exact ih (i+1) m hm2
      have h2 : SubsetSum.count (powTail (i+1) k) ((2:ℚ)^i * (n:ℚ) - (2:ℚ)^i) = 0 := by
        apply count_powTail_eq_zero
        intro n' hn' he
        have h' : (2:ℚ)^i * ((n:ℚ) - 1) = (2:ℚ)^i * (2 * (n':ℚ)) := by
          rw [mul_sub, mul_one, he]; ring
        have key : (n:ℚ) - 1 = 2 * (n':ℚ) := (mul_right_inj' h2i).mp h'
        have keyz : (n:ℤ) - 1 = 2 * (n':ℤ) := by exact_mod_cast key
        omega
      rw [h1, h2]
    · have hm2 : m < 2^k := by omega
      have h1 : SubsetSum.count (powTail (i+1) k) ((2:ℚ)^i * (n:ℚ)) = 0 := by
        apply count_powTail_eq_zero
        intro n' hn' he
        have key : (n:ℚ) = 2 * (n':ℚ) := by
          have h' : (2:ℚ)^i * (n:ℚ) = (2:ℚ)^i * (2 * (n':ℚ)) := by
            rw [he]; ring
          exact (mul_right_inj' h2i).mp h'
        have keyz : (n:ℤ) = 2 * (n':ℤ) := by exact_mod_cast key
        omega
      have e2 : (2:ℚ)^i * (n:ℚ) - (2:ℚ)^i = (2:ℚ)^(i+1) * m := by
        subst hm; push_cast; ring
      have h2 : SubsetSum.count (powTail (i+1) k) ((2:ℚ)^i * (n:ℚ) - (2:ℚ)^i) = 1 := by
        rw [e2]; exact ih (i+1) m hm2
      rw [h1, h2]

/-- Unfolding step for the binary-digit reference list. -/
theorem bitFilter_step (n i k : ℕ) :
    ((List.range (k+1)).filter (fun j => n.testBit j)).map (fun j => (2:ℚ)^(i+j)) =
      (if n.testBit 0 then [(2:ℚ)^i] else []) ++
        ((List.range k).filter (fun j => (n/2).testBit j)).map (fun j => (2:ℚ)^((i+1)+j)) := by
  rw [List.range_succ_eq_map]
  have hmap : List.filter (fun j => n.testBit j) ((List.range k).map Nat.succ) =
      ((List.range k).filter (fun j => (n/2).testBit j)).map Nat.succ := by
    rw [List.filter_map]
    congr 1
    apply List.filter_congr
    intro j _
    show n.testBit (Nat.succ j) = (n/2).testBit j
    exact Nat.testBit_succ n j
  have hmap2 : ∀ l : List ℕ, (l.map Nat.succ).map (fun j => (2:ℚ)^(i+j)) =
      l.map (fun j => (2:ℚ)^((i+1)+j)) := by
    intro l
    rw [List.map_map]
    apply List.map_congr_left
    intro j _
    show (2:ℚ)^(i + Nat.succ j) = (2:ℚ)^((i+1)+j)
    rw [Nat.add_succ, Nat.succ_add]
  cases h0 : n.testBit 0 with
  | false =>
    rw [List.filter_cons_of_neg (by simp [h0]), hmap, hmap2]
    simp [h0]
  | true =>
    rw [List.filter_cons_of_pos (by simp [h0]), List.map_cons, hmap, hmap2]
    simp [h0]

/-- The greedy reconstruction over a power tail returns exactly the values
selected by the binary digits of the target. -/
theorem gList_powTail :
    ∀ (k i n : ℕ), n < 2^k →
      gList (powTail i k) ((2:ℚ)^i * n) =
        ((List.range k).filter (fun j => n.testBit j)).map (fun j => (2:ℚ)^(i+j)) := by
  intro k
  induction k with
  | zero => intro i n hn; simp [powTail_zero, gList]
  | succ k ih =>
    intro i n hn
    have hp : 2^(k+1) = 2^k * 2 := by rw [pow_succ]
    have h2i : (2:ℚ)^i ≠ 0 := pow_ne_zero i two_ne_zero
    rw [powTail_succ, gList, bitFilter_step]
    rcases Nat.even_or_odd n with ⟨m, hm⟩ | ⟨m, hm⟩
    · have hm2 : m < 2^k := by omega
      have hdiv : n / 2 = m := by omega
      have ht0 : n.testBit 0 = false := by
        simp only [Nat.testBit_zero, decide_eq_false_iff_not]
        omega
      have hc : count (powTail (i+1) k) ((2:ℚ)^i * (n:ℚ) - (2:ℚ)^i) = 0 := by
        apply count_powTail_eq_zero
        intro n' hn' he
        have h' : (2:ℚ)^i * ((n:ℚ) - 1) = (2:ℚ)^i * (2 * (n':ℚ)) := by
          rw [mul_sub, mul_one, he]; ring
        have key : (n:ℚ) - 1 = 2 * (n':ℚ) := (mul_right_inj' h2i).mp h'
        have keyz : (n:ℤ) - 1 = 2 * (n':ℤ) := by exact_mod_cast key
        omega
      have hnc : ¬ 0 < count (powTail (i+1) k) ((2:ℚ)^i * (n:ℚ) - (2:ℚ)^i) := by
        rw [hc]; exact lt_irrefl 0
      have e : (2:ℚ)^i * (n:ℚ) = (2:ℚ)^(i+1) * m := by
        subst hm; push_cast; ring
      rw [if_neg hnc, e, ih (i+1) m hm2, hdiv, ht0]
      simp
    · have hm2 : m < 2^k := by omega
      have hdiv : n / 2 = m := by omega
      have ht0 : n.testBit 0 = true := by
        simp only [Nat.testBit_zero, decide_eq_true_eq]
        omega
      have e2 : (2:ℚ)^i * (n:ℚ) - (2:ℚ)^i = (2:ℚ)^(i+1) * m := by
        subst hm; push_cast; ring
      have hc : count (powTail (i+1) k) ((2:ℚ)^i * (n:ℚ) - (2:ℚ)^i) = 1 := by
        rw [e2]; exact count_powTail_eq_one k (i+1) m hm2
      have hcpos : 0 < count (powTail (i+1) k) ((2:ℚ)^i * (n:ℚ) - (2:ℚ)^i) := by
        rw [hc]; exact Nat.one_pos
      rw [if_pos hcpos, e2, ih (i+1) m hm2, hdiv, ht0]
      simp

open ResistanceManager

/-- The 16-value catalog is the power tail at scale one quarter. -/
theorem catalog_eq :
    even_bank ++ odd_bank = (powTail 0 16).map (fun x => x / 4) := by
  simp only [powTail, List.map_cons, List.map_nil]
  norm_num [even_bank, odd_bank]

theorem pyRound_intCast (z : ℤ) : pyRound (z:ℚ) = z := by
  rw [pyRound, Int.floor_intCast, sub_self, if_pos (by norm_num : (0:ℚ) < 1/2)]

theorem pyRound_natCast (q : ℕ) : pyRound (q:ℚ) = (q:ℤ) := by
  have h := pyRound_intCast (q:ℤ)
  rw [Int.cast_natCast] at h
  exact h

/-- Exact quarter-ohm multiples are fixed points of the quantization step. -/
theorem quantize_quarter (q : ℕ) : quantize ((q:ℚ)/4) = (q:ℚ)/4 := by
  rw [quantize, div_mul_cancel₀ _ (by norm_num : (4:ℚ) ≠ 0), pyRound_natCast]
  push_cast
  rfl

/-- Full characterization of the solver on the catalog: on an achievable
quarter-ohm target it returns the target as achieved sum together with the
binary decomposition of the quarter count, and exactly one subset achieves
the target. -/
theorem solver_on_catalog (q : ℕ) (hq : q < 65536) :
    SubsetSum.get_banks_to_leave_open (even_bank ++ odd_bank) ((q:ℚ)/4) =
      ((q:ℚ)/4, binaryDecompose q) ∧
    count (even_bank ++ odd_bank) ((q:ℚ)/4) = 1 ∧
    (binaryDecompose q).sum = (q:ℚ)/4 := by
  have h16 : q < 2^16 := lt_of_lt_of_le hq (by norm_num)
  have hcount1 : count (powTail 0 16) (q:ℚ) = 1 := by
    have h := count_powTail_eq_one 16 0 q h16
    simpa using h
  have hgl : gList (powTail 0 16) (q:ℚ) =
      ((List.range 16).filter (fun j => q.testBit j)).map (fun j => (2:ℚ)^(0+j)) := by
    have h := gList_powTail 16 0 q h16
    simpa using h
  have hcat : count (even_bank ++ odd_bank) ((q:ℚ)/4) = 1 := by
    rw [catalog_eq, count_div 4 (by norm_num), hcount1]
  have hlist : gList (even_bank ++ odd_bank) ((q:ℚ)/4) = binaryDecompose q := by
    rw [catalog_eq, gList_div 4 (by norm_num), hgl, binaryDecompose, List.map_map]
    apply List.map_congr_left
    intro j _
    show (2:ℚ)^(0+j) / 4 = (2:ℚ)^j / 4
    rw [Nat.zero_add]
  have hsum : (gList (even_bank ++ odd_bank) ((q:ℚ)/4)).sum = (q:ℚ)/4 :=
    gList_sum _ _ (by rw [hcat]; norm_num)
  refine ⟨?_, hcat, ?_⟩
  · rw [SubsetSum.get_banks_to_leave_open_eq, hsum, hlist]
  · rw [← hlist]; exact hsum

/-- Unfolding of the encoder on an in-range request: the three unconditional
closures, then the Bank A bypass closures, then the Bank B bypass closures,
with the active values removed from the bypass lists. -/
theorem get_banks_plan (A B : List String) (c : List (String × String)) (t : ℚ)
    (h0 : 0 ≤ t) (h1 : t ≤ 16000) :
    ((ResistanceManager.mk A B c).get_banks_to_close_by_name t).1 =
      [(A.getD 0 emptyS, A.getD 1 emptyS), (B.getD 0 emptyS, B.getD 1 emptyS),
       (A.getD 0 emptyS, B.getD 0 emptyS)]
        ++ (even_bank.filter
              (fun x => ¬ x ∈ gList (even_bank ++ odd_bank) (quantize t))).map
            (fun v => (A.getD 0 emptyS, dictGet (bank0_dict (ResistanceManager.mk A B c)) v))
        ++ (odd_bank.filter
              (fun x => ¬ x ∈ gList (even_bank ++ odd_bank) (quantize t))).map
            (fun v => (B.getD 0 emptyS, dictGet (bank1_dict (ResistanceManager.mk A B c)) v)) := by
  simp only [get_banks_to_close_by_name, SubsetSum.get_banks_to_leave_open_eq]
  rw [if_pos ⟨h0, h1⟩]

/-- If no subset achieves the target, the greedy reconstruction is empty. -/
theorem gList_eq_nil_of_count_zero : ∀ (xs : List ℚ) (t : ℚ),
    count xs t = 0 → gList xs t = [] := by
  intro xs
  induction xs with
  | nil => intro t _; rfl
  | cons x xs ih =>
    intro t h
    rw [count] at h
    rw [gList, if_neg (by omega), ih t (by omega)]

/-- C1.  For every quantized target that is an exact multiple of 0.25 in
[0, 16000] (written as q quarter-ohms with q ≤ 64000), the solver invoked by
the decomposer succeeds: the subset of catalog values it leaves active sums
exactly to the target, the achieved sum it reports is the target, and
`get_banks_to_close_by_name` produces a (non-empty) closure plan rather than
the failure result. -/
theorem C1_decompose_quarter_targets (q : ℕ) (A B : List String)
    (c : List (String × String)) (hq : q ≤ 64000) :
    (SubsetSum.get_banks_to_leave_open (even_bank ++ odd_bank) ((q:ℚ)/4)).2.sum
        = (q:ℚ)/4 ∧
    (SubsetSum.get_banks_to_leave_open (even_bank ++ odd_bank) ((q:ℚ)/4)).1
        = (q:ℚ)/4 ∧
    ((ResistanceManager.mk A B c).get_banks_to_close_by_name ((q:ℚ)/4)).1 ≠ [] := by
  obtain ⟨hsolve, _, hbsum⟩ := solver_on_catalog q (by omega)
  refine ⟨?_, ?_, ?_⟩
  · rw [hsolve]; exact hbsum
  · rw [hsolve]
  · have h0 : (0:ℚ) ≤ (q:ℚ)/4 := div_nonneg (Nat.cast_nonneg q) (by norm_num)
    have h1 : ((q:ℚ)/4) ≤ 16000 := by
      rw [div_le_iff₀ (by norm_num : (0:ℚ) < 4)]
      have : (q:ℚ) ≤ 64000 := by exact_mod_cast hq
      linarith
    rw [get_banks_plan A B c _ h0 h1]
    simp

theorem C1_decompose_quarter_targets_witness :
    (268:ℕ) ≤ 64000 ∧
    ((SubsetSum.get_banks_to_leave_open (even_bank ++ odd_bank)
          (((268:ℕ):ℚ)/4)).2.sum = ((268:ℕ):ℚ)/4 ∧
      (SubsetSum.get_banks_to_leave_open (even_bank ++ odd_bank)
          (((268:ℕ):ℚ)/4)).1 = ((268:ℕ):ℚ)/4 ∧
      ((ResistanceManager.mk [] [] []).get_banks_to_close_by_name
          (((268:ℕ):ℚ)/4)).1 ≠ []) :=
  ⟨by norm_num, C1_decompose_quarter_targets 268 [] [] [] (by norm_num)⟩

/-- C2.  For every feasible quantized target (q quarter-ohms, q < 2^16) the
active subset the solver returns equals the direct binary-decomposition
reference (one catalog value per set bit of q, in ascending order), and
exactly one subset of the catalog achieves the target. -/
theorem C2_matches_binary_reference (q : ℕ) (hq : q < 65536) :
    (SubsetSum.get_banks_to_leave_open (even_bank ++ odd_bank) ((q:ℚ)/4)).2
        = binaryDecompose q ∧
    numSubsets (even_bank ++ odd_bank) ((q:ℚ)/4) = 1 := by
  obtain ⟨hs, hc, _⟩ := solver_on_catalog q hq
  exact ⟨by rw [hs], by rw [← count_eq_numSubsets]; exact hc⟩

theorem C2_matches_binary_reference_witness :
    (268:ℕ) < 65536 ∧
    ((SubsetSum.get_banks_to_leave_open (even_bank ++ odd_bank)
          (((268:ℕ):ℚ)/4)).2 = binaryDecompose 268 ∧
      numSubsets (even_bank ++ odd_bank) (((268:ℕ):ℚ)/4) = 1) :=
  ⟨by norm_num, C2_matches_binary_reference 268 (by norm_num)⟩

/-- C4.  With any consistent memo (in particular the fresh empty one),
`SubsetSum.f` returns exactly the number of subsets of `values[i:]` summing
to the remaining target, and past the end of the list it returns 1 if the
remaining target is 0 and 0 otherwise. -/
theorem C4_f_counts_subsets (v : List ℚ) (i : ℕ) (r : ℚ) (memo : SubsetSum.Memo)
    (hm : SubsetSum.MemoOK v memo) :
    (SubsetSum.f v i r memo).1 = numSubsets (v.drop i) r ∧
    (v.length ≤ i → (SubsetSum.f v i r memo).1 = if r = 0 then 1 else 0) := by
  have h := (SubsetSum.f_spec (i := i) (r := r) hm).1
  constructor
  · rw [h, count_eq_numSubsets]
  · intro hi
    rw [h, List.drop_eq_nil_of_le hi]
    rfl

theorem C4_f_counts_subsets_witness :
    SubsetSum.MemoOK [1, 2] [] ∧
    ((SubsetSum.f [1, 2] 0 3 []).1 = numSubsets (([1, 2] : List ℚ).drop 0) 3 ∧
      (([1, 2] : List ℚ).length ≤ 0 →
        (SubsetSum.f [1, 2] 0 3 []).1 = if (3:ℚ) = 0 then 1 else 0)) :=
  ⟨SubsetSum.MemoOK_nil _, C4_f_counts_subsets [1, 2] 0 3 [] (SubsetSum.MemoOK_nil _)⟩

/-- C6.  If no subset of the (non-empty) value list sums exactly to the
target, the solver returns achieved sum 0 and the empty subset, as a normal
return value. -/
theorem C6_infeasible_returns_zero (xs : List ℚ) (t : ℚ)
    (_hne : xs ≠ []) (h : numSubsets xs t = 0) :
    SubsetSum.get_banks_to_leave_open xs t = (0, []) := by
  rw [← count_eq_numSubsets] at h
  rw [SubsetSum.get_banks_to_leave_open_eq, gList_eq_nil_of_count_zero xs t h]
  rfl

theorem C6_infeasible_returns_zero_witness :
    ([1] : List ℚ) ≠ [] ∧ numSubsets [1] 5 = 0 ∧
    SubsetSum.get_banks_to_leave_open [1] 5 = (0, []) :=
  ⟨by simp, by norm_num [numSubsets],
    C6_infeasible_returns_zero [1] 5 (by simp) (by norm_num [numSubsets])⟩

/-- C5 counterexample.  The request 0.125 ohm lies exactly halfway between
the quarter steps 0 and 0.25; the code quantizes it to 0 (the smaller step,
since Python's built-in round rounds ties to even), not to 0.25 as
round-half-up would demand. -/
theorem C5_half_up_counterexample :
    quantize (1/8) = 0 ∧ ¬ quantize (1/8) = 1/4 := by
  have h : quantize (1/8) = 0 := by
    simp only [quantize, pyRound]
    norm_num
  exact ⟨h, by rw [h]; norm_num⟩

/-- C5 amended.  Quantization rounds to the nearest 0.25 step, and a request
exactly halfway between two steps (at (2k+1)/8 ohm) goes to the step with the
even quarter count, i.e. ties are broken half-to-even, not half-up. -/
theorem C5_ties_to_even (k : ℤ) :
    quantize ((2*(k:ℚ)+1)/8) = ((if k % 2 = 0 then k else k + 1 : ℤ) : ℚ)/4 := by
  have harg : ((2*(k:ℚ)+1)/8) * 4 = (k:ℚ) + 1/2 := by ring
  have hfl : ⌊(k:ℚ) + 1/2⌋ = k := by
    rw [add_comm, Int.floor_add_int]
    norm_num
  have hfrac : (k:ℚ) + 1/2 - (k:ℚ) = 1/2 := by ring
  simp only [quantize, pyRound, harg, hfl, hfrac]
  rw [if_neg (by norm_num : ¬ ((1:ℚ)/2 < 1/2)),
    if_neg (by norm_num : ¬ ((1:ℚ)/2 < 1/2))]

/-- C3.  On an out-of-range request the code does not fail: it silently
returns an empty connection list (after only logging) and leaves the manager
state untouched.  This contradicts the claimed explicit RangeError, which the
specification itself mandates in place of this source behavior. -/
theorem C3_out_of_range_silent_empty (A B : List String)
    (c : List (String × String)) :
    ((ResistanceManager.mk A B c).get_banks_to_close_by_name (-(1/100))).1 = [] ∧
    ((ResistanceManager.mk A B c).get_banks_to_close_by_name (16000 + 1/100)).1 = [] ∧
    ((ResistanceManager.mk A B c).get_banks_to_close_by_name (-(1/100))).2 =
      ResistanceManager.mk A B c := by
  refine ⟨?_, ?_, ?_⟩ <;>
    simp only [get_banks_to_close_by_name] <;>
    rw [if_neg (by norm_num)]

/-- The clear sequence is exactly one query-then-conditional-disconnect block
per managed pair, in the order the pairs are visited. -/
theorem clearWholeChannel_eq (m : ResistanceManager)
    (pe : String → String → Bool) :
    clearWholeChannel m pe =
      (managedPairs m).flatMap
        (fun p => TopoOp.query p.1 p.2 ::
          if pe p.1 p.2 then [TopoOp.disconnect p.1 p.2] else []) := by
  simp only [clearWholeChannel, managedPairs, checkAndDisconnect]
  simp only [List.flatMap_append, List.flatMap_cons, List.flatMap_nil,
    List.append_nil, List.flatMap_map]
  have hfm : ∀ (l : List String) (g : String → List TopoOp),
      (l.map g).flatten = l.flatMap g := fun l g => rfl
  rw [hfm, hfm]

/-- C10.  During `clearWholeChannel`, every issued disconnect was preceded by
a query showing the path exists (never a disconnect of an already-open path),
and every bypass, engage and bridge pair of the channel is queried and is
disconnected whenever a path exists on it. -/
theorem C10_clear_checks_before_disconnect (m : ResistanceManager)
    (pe : String → String → Bool) :
    (∀ a b, TopoOp.disconnect a b ∈ clearWholeChannel m pe → pe a b = true) ∧
    (∀ p ∈ managedPairs m,
      TopoOp.query p.1 p.2 ∈ clearWholeChannel m pe ∧
      (pe p.1 p.2 = true → TopoOp.disconnect p.1 p.2 ∈ clearWholeChannel m pe)) := by
  rw [clearWholeChannel_eq]
  constructor
  · intro a b hmem
    rw [List.mem_flatMap] at hmem
    obtain ⟨p, hp, hin⟩ := hmem
    rcases List.mem_cons.mp hin with h | h
    · exact TopoOp.noConfusion h
    · by_cases hpe : pe p.1 p.2
      · rw [if_pos hpe] at h
        have h2 := List.mem_singleton.mp h
        injection h2 with h3 h4
        rw [h3, h4]
        exact hpe
      · rw [if_neg hpe] at h
        exact absurd h (List.not_mem_nil _)
  · intro p hp
    constructor
    · rw [List.mem_flatMap]
      exact ⟨p, hp, List.mem_cons_self _ _⟩
    · intro hpe
      rw [List.mem_flatMap]
      refine ⟨p, hp, ?_⟩
      rw [List.mem_cons]
      right
      rw [if_pos hpe]
      exact List.mem_singleton.mpr rfl

/-- C9.  Encoding is deterministic and stateless across calls: the closure
plan depends only on the bank layouts and the request (not on the
`connections` field left over from earlier calls, nor on any memo state,
which is fresh inside each solver call), and calling the encoder twice in a
row yields the identical plan. -/
theorem C9_encode_deterministic (A B : List String)
    (c c2 : List (String × String)) (r : ℚ) :
    ((ResistanceManager.mk A B c).get_banks_to_close_by_name r).1 =
      ((ResistanceManager.mk A B c2).get_banks_to_close_by_name r).1 ∧
    ((((ResistanceManager.mk A B c).get_banks_to_close_by_name r).2).get_banks_to_close_by_name
        r).1 =
      ((ResistanceManager.mk A B c).get_banks_to_close_by_name r).1 := by
  have key : ∀ d d2 : List (String × String),
      ((ResistanceManager.mk A B d).get_banks_to_close_by_name r).1 =
        ((ResistanceManager.mk A B d2).get_banks_to_close_by_name r).1 := by
    intro d d2
    by_cases h : 0 ≤ r ∧ r ≤ 16000 <;>
      simp [get_banks_to_close_by_name, bank0_dict, bank1_dict, h]
  have hstate :
      ((ResistanceManager.mk A B c).get_banks_to_close_by_name r).2.bank_a = A ∧
      ((ResistanceManager.mk A B c).get_banks_to_close_by_name r).2.bank_b = B := by
    by_cases h : 0 ≤ r ∧ r ≤ 16000 <;>
      simp [get_banks_to_close_by_name, h]
  refine ⟨key c c2, ?_⟩
  rcases hs : ((ResistanceManager.mk A B c).get_banks_to_close_by_name r).2
    with ⟨a2, b2, d2⟩
  have ha : a2 = A := by rw [← hstate.1, hs]
  have hb : b2 = B := by rw [← hstate.2, hs]
  rw [ha, hb]
  exact key d2 c

/-- C7.  decompose(67) leaves exactly the values 1, 2 and 64 active
(1 + 2 + 64 = 67), and the closure plan consists exactly of the two
bank-engage closures, the Bank A trunk to Bank B trunk bridge, and one bypass
closure for each of the 13 catalog values other than 1, 2 and 64 — stated up
to permutation, since the Python code iterates sets whose order is a
hash-table artifact. -/
theorem C7_decompose_67 (A B : List String) (c : List (String × String)) :
    (SubsetSum.get_banks_to_leave_open (even_bank ++ odd_bank) 67).2
        = [1, 2, 64] ∧
    ((ResistanceManager.mk A B c).get_banks_to_close_by_name 67).1.Perm
      [(A.getD 0 emptyS, A.getD 1 emptyS), (B.getD 0 emptyS, B.getD 1 emptyS),
       (A.getD 0 emptyS, B.getD 0 emptyS),
       (A.getD 0 emptyS, A.getD 2 emptyS), (A.getD 0 emptyS, A.getD 3 emptyS),
       (A.getD 0 emptyS, A.getD 6 emptyS), (A.getD 0 emptyS, A.getD 7 emptyS),
       (A.getD 0 emptyS, A.getD 8 emptyS), (A.getD 0 emptyS, A.getD 9 emptyS),
       (B.getD 0 emptyS, B.getD 3 emptyS), (B.getD 0 emptyS, B.getD 4 emptyS),
       (B.getD 0 emptyS, B.getD 5 emptyS), (B.getD 0 emptyS, B.getD 6 emptyS),
       (B.getD 0 emptyS, B.getD 7 emptyS), (B.getD 0 emptyS, B.getD 8 emptyS),
       (B.getD 0 emptyS, B.getD 9 emptyS)] := by
  have he : ((268:ℕ):ℚ)/4 = 67 := by norm_num
  have hfilterbits :
      (List.range 16).filter (fun j => Nat.testBit 268 j) = [2, 3, 8] := by decide
  have hbd : binaryDecompose 268 = [1, 2, 64] := by
    rw [binaryDecompose, hfilterbits]
    norm_num
  have hsolve := (solver_on_catalog 268 (by norm_num)).1
  rw [he, hbd] at hsolve
  have hval : (SubsetSum.get_banks_to_leave_open (even_bank ++ odd_bank) 67).2
      = [1, 2, 64] := by rw [hsolve]
  have hgl : gList (even_bank ++ odd_bank) (67:ℚ) = [1, 2, 64] := by
    have h2 := SubsetSum.get_banks_to_leave_open_eq (even_bank ++ odd_bank) 67
    rw [h2] at hval
    exact hval
  have hq67 : quantize 67 = 67 := by
    have h := quantize_quarter 268
    rw [he] at h
    exact h
  refine ⟨by rw [hsolve], ?_⟩
  have hplan : ((ResistanceManager.mk A B c).get_banks_to_close_by_name 67).1 =
      [(A.getD 0 emptyS, A.getD 1 emptyS), (B.getD 0 emptyS, B.getD 1 emptyS),
       (A.getD 0 emptyS, B.getD 0 emptyS),
       (A.getD 0 emptyS, A.getD 2 emptyS), (A.getD 0 emptyS, A.getD 3 emptyS),
       (A.getD 0 emptyS, A.getD 6 emptyS), (A.getD 0 emptyS, A.getD 7 emptyS),
       (A.getD 0 emptyS, A.getD 8 emptyS), (A.getD 0 emptyS, A.getD 9 emptyS),
       (B.getD 0 emptyS, B.getD 3 emptyS), (B.getD 0 emptyS, B.getD 4 emptyS),
       (B.getD 0 emptyS, B.getD 5 emptyS), (B.getD 0 emptyS, B.getD 6 emptyS),
       (B.getD 0 emptyS, B.getD 7 emptyS), (B.getD 0 emptyS, B.getD 8 emptyS),
       (B.getD 0 emptyS, B.getD 9 emptyS)] := by
    rw [get_banks_plan A B c 67 (by norm_num) (by norm_num), hq67, hgl]
    norm_num [even_bank, odd_bank, dictGet, bank0_dict, bank1_dict]
  rw [hplan]

end Nimi
